import Mathlib

/-!
Verification of the `treant` binary-tree cursor library.

Shallow embedding of `src/binary/binary.rs` and `src/binary/view.rs`.

Nodes live in a heap (`Heap`): a list of node records, where a raw pointer
`*mut BinaryNode<T>` is modelled as an index into that list and the null
pointer as `none` in an `Option Nat`.  A `BinaryTree<T>` is represented by
the address of its root cell (`BinaryTree::new` allocates a fresh root
node with a null parent).  Cursors (`BinaryViewInner`) carry the raw node
pointer, exactly as in the source.

Fallible navigation is modelled by an explicit result type: `ok`/`err`
mirror `Result<Self, Self>`, `panicked` mirrors the
`panic!("View pointed to an invalid tree")` branch taken on a null
position, and `fault` marks a dereference of a non-null address that is
not a live allocation (undefined behaviour in the source, unreachable
through the safe API).  The `into_mut` verification loop is given explicit
fuel; `noFuel` marks fuel exhaustion (the source loop would keep walking).
-/

/-- `Dir` from `binary.rs`: `Left` selects `children.0`, `Right` selects
`children.1`. -/
inductive Dir where
  | Left
  | Right
deriving DecidableEq, Repr

/-- `BinaryNode<T>` from `binary.rs`: a parent back-pointer (nullable),
two owned child slots, and a value.  Owned `Box` pointers and the raw
parent pointer are both heap addresses here. -/
structure BinaryNode (T : Type) where
  parent : Option Nat
  children : Option Nat × Option Nat
  value : T
deriving DecidableEq, Repr

/-- The node heap: address `a` denotes `nodes[a]`.  Allocation appends. -/
structure Heap (T : Type) where
  nodes : List (BinaryNode T)
deriving DecidableEq, Repr

/-- Dereference an address, `none` when the address is not allocated. -/
def Heap.deref (h : Heap T) (a : Nat) : Option (BinaryNode T) :=
  h.nodes[a]?

/-- The child slot named by `dir`, as selected by the `match` in
`BinaryNode::add_child` and `BinaryViewInner::descend`. -/
def childSlot (n : BinaryNode T) : Dir → Option Nat
  | .Left => n.children.1
  | .Right => n.children.2

/-- The opposite direction (used only to state frame properties). -/
def Dir.opp : Dir → Dir
  | .Left => .Right
  | .Right => .Left

/-- `BinaryNode::new`: null parent, both child slots empty. -/
def BinaryNode.new (value : T) : BinaryNode T :=
  { parent := none, children := (none, none), value := value }

/-- `BinaryNode::value`. -/
def BinaryNode.getValue (n : BinaryNode T) : T :=
  n.value

/-- `BinaryNode::set_value` on the node at address `a`: replaces the value
and returns the previous one (`none` when `a` is not a live node — the
source takes `&mut self`, so that case cannot arise there). -/
def set_value (h : Heap T) (a : Nat) (data : T) : Heap T × Option T :=
  match h.deref a with
  | none => (h, none)
  | some n => (⟨h.nodes.set a { n with value := data }⟩, some n.value)

/-- `BinaryNode::add_child` on the node at address `a`: builds a fresh
node whose parent back-pointer is `a`, installs it in slot `dir`, and
returns the address of the previous occupant of that slot.  The fresh
node is allocated at address `h.nodes.length`.  (When `a` is not a live
node nothing happens; the source takes `&mut self`, so that case cannot
arise there.) -/
def add_child (h : Heap T) (a : Nat) (dir : Dir) (data : T) :
    Heap T × Option Nat :=
  match h.deref a with
  | none => (h, none)
  | some n =>
    let fresh := h.nodes.length
    let newNode : BinaryNode T :=
      { parent := some a, children := (none, none), value := data }
    match dir with
    | .Left =>
      (⟨(h.nodes.set a { n with children := (some fresh, n.children.2) })
          ++ [newNode]⟩, n.children.1)
    | .Right =>
      (⟨(h.nodes.set a { n with children := (n.children.1, some fresh) })
          ++ [newNode]⟩, n.children.2)

/-- `BinaryTree::new`: allocates a root node (null parent) and returns
its address — the address `tree.as_ptr().get()` and `tree.root()` expose. -/
def BinaryTree.new (h : Heap T) (value : T) : Heap T × Nat :=
  (⟨h.nodes ++ [BinaryNode.new value]⟩, h.nodes.length)

/-- `BinaryViewInner<'tree, T>`: the raw position pointer (null = `none`).

The `PhantomData` borrow tag has no runtime content and is omitted. -/
structure BinaryViewInner where
  node : Option Nat
deriving DecidableEq, Repr

/-- Outcome of one navigation step (`Result<Self, Self>` in the source,
plus the two unsafe outcomes). -/
inductive NavResult where
  /-- The `panic!("View pointed to an invalid tree")` branch. -/
  | panicked
  /-- Dereference of a dead address: undefined behaviour in the source. -/
  | fault
  /-- `Ok(self)` with the moved view. -/
  | ok (v : BinaryViewInner)
  /-- `Err(self)` with the unmoved view. -/
  | err (v : BinaryViewInner)
deriving DecidableEq, Repr

/-- `BinaryViewInner::climb`: panic on a null position, `Err` (view
unchanged) when the node's parent pointer is null, otherwise `Ok` with
the position moved to the parent. -/
def BinaryViewInner.climb (h : Heap T) (v : BinaryViewInner) : NavResult :=
  match v.node with
  | none => .panicked
  | some a =>
    match h.deref a with
    | none => .fault
    | some n =>
      match n.parent with
      | none => .err v
      | some p => .ok ⟨some p⟩

/-- `BinaryViewInner::descend`: panic on a null position, `Err` (view
unchanged) when slot `dir` is empty, otherwise `Ok` with the position
moved to that child. -/
def BinaryViewInner.descend (h : Heap T) (v : BinaryViewInner) (dir : Dir) :
    NavResult :=
  match v.node with
  | none => .panicked
  | some a =>
    match h.deref a with
    | none => .fault
    | some n =>
      match childSlot n dir with
      | none => .err v
      | some c => .ok ⟨some c⟩

/-- `BinaryView::new`: position the view at the tree's root cell
(`tree.as_ptr().get()`, never null). -/
def BinaryView.new (rootAddr : Nat) : BinaryViewInner :=
  ⟨some rootAddr⟩

/-- Outcome of `BinaryView::into_mut`
(`Result<BinaryViewMut, BinaryView>` plus the unsafe outcomes and fuel
exhaustion). -/
inductive UpgradeResult where
  | panicked
  | fault
  /-- The source loop would still be walking after the given fuel. -/
  | noFuel
  /-- `Ok(BinaryViewMut(self.0))`, position restored to `old_node`. -/
  | ok (v : BinaryViewInner)
  /-- `Err(this)`, position restored to `old_node`. -/
  | err (v : BinaryViewInner)
deriving DecidableEq, Repr

/-- The `loop` body of `BinaryView::into_mut`: compare the current
position with `tree.root()` by address; on a match restore `old_node`
and succeed, otherwise climb, and if the climb fails (at a root) restore
`old_node` and fail. -/
def intoMutLoop (h : Heap T) (rootN old : Nat) :
    Option Nat → Nat → UpgradeResult
  | _, 0 => .noFuel
  | cur, fuel + 1 =>
    if cur = some rootN then .ok ⟨some old⟩
    else
      match BinaryViewInner.climb h ⟨cur⟩ with
      | .ok v => intoMutLoop h rootN old v.node fuel
      | .err _ => .err ⟨some old⟩
      | .panicked => .panicked
      | .fault => .fault

/-- `BinaryView::into_mut`: save `old_node`, then run the verification
loop against `tree.root()` (address `rootN`).  A null position compares
unequal to the non-null root and the first `climb` panics. -/
def BinaryView.into_mut (h : Heap T) (rootN : Nat) (v : BinaryViewInner)
    (fuel : Nat) : UpgradeResult :=
  match v.node with
  | none => .panicked
  | some old => intoMutLoop h rootN old (some old) fuel

/-- Follow a list of directions down from address `a` through live child
slots (the reachable-position relation: `follow h r p` is the node at
path `p` under root `r`). -/
def follow (h : Heap T) (a : Nat) : List Dir → Option Nat
  | [] => some a
  | d :: p => ((h.deref a).bind fun n => childSlot n d).bind fun c => follow h c p

/-- Both child slots of the node at `a` satisfy the parent back-link
invariant: an occupied slot holds a live node whose parent pointer is
exactly `a`. -/
def slotOk (h : Heap T) (a : Nat) : Option Nat → Bool
  | none => true
  | some c =>
    match h.deref c with
    | none => false
    | some m => m.parent == some a

/-- Heap well-formedness: every occupied child slot of every live node
points to a live node whose parent back-pointer is the containing node's
address (the invariant of §3 of the spec). -/
def wf (h : Heap T) : Bool :=
  (List.range h.nodes.length).all fun a =>
    match h.deref a with
    | none => true
    | some n => slotOk h a n.children.1 && slotOk h a n.children.2

/-- Climb through parent pointers until a null parent (the root of the
tree the address belongs to); `none` when fuel runs out or a dead address
is hit. -/
def climbToRoot (h : Heap T) : Nat → Nat → Option Nat
  | _, 0 => none
  | a, fuel + 1 =>
    match h.deref a with
    | none => none
    | some n =>
      match n.parent with
      | none => some a
      | some p => climbToRoot h p fuel

/-! ## Basic heap lemmas -/

theorem Heap.deref_lt {h : Heap T} {a : Nat} {n : BinaryNode T}
    (hn : h.deref a = some n) : a < h.nodes.length := by
  rcases List.getElem?_eq_some.mp hn with ⟨hlt, _⟩
  exact hlt

theorem wf_deref {h : Heap T} {a : Nat} {n : BinaryNode T}
    (hwf : wf h = true) (hn : h.deref a = some n) :
    slotOk h a n.children.1 = true ∧ slotOk h a n.children.2 = true := by
  have ha : a < h.nodes.length := Heap.deref_lt hn
  unfold wf at hwf
  rw [List.all_eq_true] at hwf
  have hb := hwf a (List.mem_range.mpr ha)
  rw [hn] at hb
  exact Bool.and_eq_true_iff.mp hb

theorem wf_slot {h : Heap T} {a c : Nat} {n : BinaryNode T} {d : Dir}
    (hwf : wf h = true) (hn : h.deref a = some n)
    (hc : childSlot n d = some c) :
    ∃ m, h.deref c = some m ∧ m.parent = some a := by
  obtain ⟨h1, h2⟩ := wf_deref hwf hn
  have hs : slotOk h a (some c) = true := by
    cases d with
    | Left => rw [childSlot] at hc; rw [← hc]; exact h1
    | Right => rw [childSlot] at hc; rw [← hc]; exact h2
  simp only [slotOk] at hs
  cases hm : h.deref c with
  | none => rw [hm] at hs; cases hs
  | some m =>
    rw [hm] at hs
    exact ⟨m, rfl, beq_iff_eq.mp hs⟩

theorem slotOk_mono {h h2 : Heap T}
    (hpar : ∀ c m, h.deref c = some m →
      ∃ m', h2.deref c = some m' ∧ m'.parent = m.parent)
    {b : Nat} {s : Option Nat} (hs : slotOk h b s = true) :
    slotOk h2 b s = true := by
  cases s with
  | none => rfl
  | some c =>
    simp only [slotOk] at hs ⊢
    cases hm : h.deref c with
    | none => rw [hm] at hs; cases hs
    | some m =>
      rw [hm] at hs
      obtain ⟨m', hm', hp⟩ := hpar c m hm
      rw [hm']
      show (m'.parent == some b) = true
      rw [hp]
      exact hs

/-! ## List-level facts about `set`-then-append heaps -/

theorem set_append_getElem?_length (l : List A) (i : Nat) (x y : A) :
    ((l.set i x) ++ [y])[l.length]? = some y := by
  rw [← List.length_set l i x]
  exact List.getElem?_concat_length _ _

theorem set_append_getElem?_self (l : List A) {i : Nat} (hi : i < l.length)
    (x y : A) : ((l.set i x) ++ [y])[i]? = some x := by
  rw [List.getElem?_append_left (by simpa using hi)]
  exact List.getElem?_set_self (by simpa using hi)

theorem set_append_getElem?_other (l : List A) {i b : Nat} (hbi : i ≠ b)
    (hb : b < l.length) (x y : A) : ((l.set i x) ++ [y])[b]? = l[b]? := by
  rw [List.getElem?_append_left (by simpa using hb)]
  exact List.getElem?_set_ne hbi

theorem set_append_getElem?_gt (l : List A) {i b : Nat}
    (hb : l.length < b) (x y : A) : ((l.set i x) ++ [y])[b]? = none := by
  apply List.getElem?_eq_none
  simp only [List.length_append, List.length_set, List.length_cons,
    List.length_nil]
  omega

/-! ## Heap shape after `add_child` -/

theorem add_child_deref_self {h : Heap T} {a : Nat} {n : BinaryNode T}
    (hn : h.deref a = some n) (d : Dir) (data : T) :
    ∃ n', (add_child h a d data).1.deref a = some n' ∧
      n'.parent = n.parent ∧ n'.value = n.value ∧
      childSlot n' d = some h.nodes.length ∧
      childSlot n' (Dir.opp d) = childSlot n (Dir.opp d) := by
  have ha : a < h.nodes.length := Heap.deref_lt hn
  cases d with
  | Left =>
    refine ⟨{ n with children := (some h.nodes.length, n.children.2) },
      ?_, rfl, rfl, rfl, rfl⟩
    simp only [add_child, hn]
    simp only [Heap.deref]
    exact set_append_getElem?_self _ ha _ _
  | Right =>
    refine ⟨{ n with children := (n.children.1, some h.nodes.length) },
      ?_, rfl, rfl, rfl, rfl⟩
    simp only [add_child, hn]
    simp only [Heap.deref]
    exact set_append_getElem?_self _ ha _ _

theorem add_child_deref_fresh {h : Heap T} {a : Nat} {n : BinaryNode T}
    (hn : h.deref a = some n) (d : Dir) (data : T) :
    (add_child h a d data).1.deref h.nodes.length =
      some { parent := some a, children := (none, none), value := data } := by
  cases d <;> simp only [add_child, hn] <;> simp only [Heap.deref] <;>
    exact set_append_getElem?_length _ _ _ _

theorem add_child_deref_other {h : Heap T} {a : Nat} {n : BinaryNode T}
    (hn : h.deref a = some n) (d : Dir) (data : T) {b : Nat}
    (hba : b ≠ a) (hbf : b ≠ h.nodes.length) :
    (add_child h a d data).1.deref b = h.deref b := by
  rcases Nat.lt_or_ge b h.nodes.length with hlt | hge
  · cases d <;> simp only [add_child, hn] <;> simp only [Heap.deref] <;>
      exact set_append_getElem?_other _ (fun e => hba e.symm) hlt _ _
  · have hgt : h.nodes.length < b := by omega
    have h2 : h.deref b = none := List.getElem?_eq_none (by omega)
    rw [h2]
    cases d <;> simp only [add_child, hn] <;> simp only [Heap.deref] <;>
      exact set_append_getElem?_gt _ hgt _ _

theorem add_child_snd {h : Heap T} {a : Nat} {n : BinaryNode T}
    (hn : h.deref a = some n) (d : Dir) (data : T) :
    (add_child h a d data).2 = childSlot n d := by
  cases d <;> simp [add_child, hn, childSlot]

theorem add_child_length {h : Heap T} {a : Nat} {n : BinaryNode T}
    (hn : h.deref a = some n) (d : Dir) (data : T) :
    (add_child h a d data).1.nodes.length = h.nodes.length + 1 := by
  cases d <;> simp [add_child, hn]

/-! ## Heap shape after `set_value` and `BinaryTree::new` -/

theorem set_value_deref_self {h : Heap T} {a : Nat} {n : BinaryNode T}
    (hn : h.deref a = some n) (data : T) :
    (set_value h a data).1.deref a = some { n with value := data } := by
  simp only [set_value, hn]
  simp only [Heap.deref]
  exact List.getElem?_set_self (Heap.deref_lt hn)

theorem set_value_deref_other {h : Heap T} {a : Nat} {n : BinaryNode T}
    (hn : h.deref a = some n) (data : T) {b : Nat} (hba : b ≠ a) :
    (set_value h a data).1.deref b = h.deref b := by
  simp only [set_value, hn]
  simp only [Heap.deref]
  exact List.getElem?_set_ne (fun e => hba e.symm)

theorem set_value_snd {h : Heap T} {a : Nat} {n : BinaryNode T}
    (hn : h.deref a = some n) (data : T) :
    (set_value h a data).2 = some n.value := by
  simp [set_value, hn]

theorem tree_new_deref_root (h : Heap T) (v : T) :
    (BinaryTree.new h v).1.deref (BinaryTree.new h v).2 =
      some (BinaryNode.new v) := by
  simp only [BinaryTree.new, Heap.deref]
  exact List.getElem?_concat_length _ _

theorem tree_new_deref_old (h : Heap T) (v : T) {b : Nat}
    (hb : b < h.nodes.length) :
    (BinaryTree.new h v).1.deref b = h.deref b := by
  simp only [BinaryTree.new, Heap.deref]
  exact List.getElem?_append_left hb

/-! ## Preservation of the parent back-link invariant -/

theorem slotOk_of_parent {h2 : Heap T} {b c : Nat} {m : BinaryNode T}
    (hm : h2.deref c = some m) (hp : m.parent = some b) :
    slotOk h2 b (some c) = true := by
  show (match h2.deref c with
    | none => false
    | some m => m.parent == some b) = true
  rw [hm]
  show (m.parent == some b) = true
  rw [hp]
  exact beq_self_eq_true _

theorem wf_intro (h2 : Heap T)
    (hall : ∀ b nb, h2.deref b = some nb →
      (slotOk h2 b nb.children.1 && slotOk h2 b nb.children.2) = true) :
    wf h2 = true := by
  unfold wf
  rw [List.all_eq_true]
  intro b hb
  show (match h2.deref b with
    | none => true
    | some n => slotOk h2 b n.children.1 && slotOk h2 b n.children.2) = true
  cases hdb : h2.deref b with
  | none => rfl
  | some nb => exact hall b nb hdb

theorem wf_tree_new {h : Heap T} (hwf : wf h = true) (v : T) :
    wf (BinaryTree.new h v).1 = true := by
  have hpar : ∀ c m, h.deref c = some m →
      ∃ m', (BinaryTree.new h v).1.deref c = some m' ∧ m'.parent = m.parent :=
    fun c m hm =>
      ⟨m, by rw [tree_new_deref_old h v (Heap.deref_lt hm)]; exact hm, rfl⟩
  apply wf_intro
  intro b nb hdb
  by_cases hbl : b = h.nodes.length
  · subst hbl
    have h0 : (BinaryTree.new h v).1.deref h.nodes.length =
        some (BinaryNode.new v) := tree_new_deref_root h v
    rw [h0] at hdb
    obtain rfl := Option.some_inj.mp hdb
    rfl
  · have hblt : b < h.nodes.length := by
      have hlen : (BinaryTree.new h v).1.nodes.length = h.nodes.length + 1 := by
        simp [BinaryTree.new]
      have := Heap.deref_lt hdb
      omega
    rw [tree_new_deref_old h v hblt] at hdb
    obtain ⟨s1, s2⟩ := wf_deref hwf hdb
    rw [Bool.and_eq_true]
    exact ⟨slotOk_mono hpar s1, slotOk_mono hpar s2⟩

theorem wf_add_child {h : Heap T} (hwf : wf h = true) (a : Nat) (d : Dir)
    (data : T) : wf (add_child h a d data).1 = true := by
  cases hd : h.deref a with
  | none =>
    have he : (add_child h a d data).1 = h := by simp [add_child, hd]
    rw [he]
    exact hwf
  | some n =>
    obtain ⟨n', hdn', hp', hv', hslot', hopp'⟩ := add_child_deref_self hd d data
    have hfresh := add_child_deref_fresh hd d data
    have hpar : ∀ c m, h.deref c = some m →
        ∃ m', (add_child h a d data).1.deref c = some m' ∧
          m'.parent = m.parent := by
      intro c m hm
      by_cases hca : c = a
      · subst hca
        obtain rfl : n = m := by rw [hd] at hm; exact Option.some_inj.mp hm
        exact ⟨n', hdn', by rw [hp']⟩
      · have hcf : c ≠ h.nodes.length := by
          have := Heap.deref_lt hm
          omega
        exact ⟨m, by rw [add_child_deref_other hd d data hca hcf]; exact hm,
          rfl⟩
    apply wf_intro
    intro b nb hdb
    by_cases hbf : b = h.nodes.length
    · subst hbf
      rw [hfresh] at hdb
      obtain rfl := Option.some_inj.mp hdb
      rfl
    · by_cases hba : b = a
      · subst hba
        rw [hdn'] at hdb
        obtain rfl := Option.some_inj.mp hdb
        rw [Bool.and_eq_true]
        cases d with
        | Left =>
          have e1 : n'.children.1 = some h.nodes.length := hslot'
          have e2 : n'.children.2 = n.children.2 := hopp'
          rw [e1, e2]
          exact ⟨slotOk_of_parent hfresh rfl,
            slotOk_mono hpar (wf_deref hwf hd).2⟩
        | Right =>
          have e1 : n'.children.2 = some h.nodes.length := hslot'
          have e2 : n'.children.1 = n.children.1 := hopp'
          rw [e1, e2]
          exact ⟨slotOk_mono hpar (wf_deref hwf hd).1,
            slotOk_of_parent hfresh rfl⟩
      · rw [add_child_deref_other hd d data hba hbf] at hdb
        obtain ⟨s1, s2⟩ := wf_deref hwf hdb
        rw [Bool.and_eq_true]
        exact ⟨slotOk_mono hpar s1, slotOk_mono hpar s2⟩

theorem wf_set_value {h : Heap T} (hwf : wf h = true) (a : Nat) (data : T) :
    wf (set_value h a data).1 = true := by
  cases hd : h.deref a with
  | none =>
    have he : (set_value h a data).1 = h := by simp [set_value, hd]
    rw [he]
    exact hwf
  | some n =>
    have hpar : ∀ c m, h.deref c = some m →
        ∃ m', (set_value h a data).1.deref c = some m' ∧
          m'.parent = m.parent := by
      intro c m hm
      by_cases hca : c = a
      · subst hca
        obtain rfl : n = m := by rw [hd] at hm; exact Option.some_inj.mp hm
        exact ⟨_, set_value_deref_self hd data, rfl⟩
      · exact ⟨m, by rw [set_value_deref_other hd data hca]; exact hm, rfl⟩
    apply wf_intro
    intro b nb hdb
    by_cases hba : b = a
    · subst hba
      rw [set_value_deref_self hd data] at hdb
      obtain rfl := Option.some_inj.mp hdb
      rw [Bool.and_eq_true]
      obtain ⟨s1, s2⟩ := wf_deref hwf hd
      exact ⟨slotOk_mono hpar s1, slotOk_mono hpar s2⟩
    · rw [set_value_deref_other hd data hba] at hdb
      obtain ⟨s1, s2⟩ := wf_deref hwf hdb
      rw [Bool.and_eq_true]
      exact ⟨slotOk_mono hpar s1, slotOk_mono hpar s2⟩

/-! ## Reachability and the `into_mut` verification loop -/

theorem follow_append (h : Heap T) (p q : List Dir) :
    ∀ a, follow h a (p ++ q) = (follow h a p).bind fun b => follow h b q := by
  induction p with
  | nil =>
    intro a
    simp [follow]
  | cons d p ih =>
    intro a
    simp [List.cons_append, follow, Option.bind_assoc, ih]

theorem intoMutLoop_mono {h : Heap T} {rootN old : Nat} {R : UpgradeResult}
    (hR : R ≠ .noFuel) :
    ∀ fuel (cur : Option Nat) fuel', intoMutLoop h rootN old cur fuel = R →
      fuel ≤ fuel' → intoMutLoop h rootN old cur fuel' = R := by
  intro fuel
  induction fuel with
  | zero =>
    intro cur fuel' h0
    exact absurd h0.symm hR
  | succ fuel ih =>
    intro cur fuel' hres hle
    cases fuel' with
    | zero => omega
    | succ fuel'' =>
      show (if cur = some rootN then UpgradeResult.ok ⟨some old⟩
        else match BinaryViewInner.climb h ⟨cur⟩ with
          | .ok v => intoMutLoop h rootN old v.node fuel''
          | .err _ => .err ⟨some old⟩
          | .panicked => .panicked
          | .fault => .fault) = R
      rw [show intoMutLoop h rootN old cur (fuel + 1) =
        (if cur = some rootN then UpgradeResult.ok ⟨some old⟩
          else match BinaryViewInner.climb h ⟨cur⟩ with
            | .ok v => intoMutLoop h rootN old v.node fuel
            | .err _ => .err ⟨some old⟩
            | .panicked => .panicked
            | .fault => .fault) from rfl] at hres
      by_cases hcur : cur = some rootN
      · rw [if_pos hcur] at hres ⊢
        exact hres
      · rw [if_neg hcur] at hres ⊢
        cases hcl : BinaryViewInner.climb h ⟨cur⟩ with
        | ok v =>
          rw [hcl] at hres
          exact ih v.node fuel'' hres (by omega)
        | err v => rw [hcl] at hres; exact hres
        | panicked => rw [hcl] at hres; exact hres
        | fault => rw [hcl] at hres; exact hres

theorem intoMutLoop_of_follow {h : Heap T} {r : Nat} (hwf : wf h = true) :
    ∀ (p : List Dir) (a : Nat), follow h r p = some a →
      ∀ old, intoMutLoop h r old (some a) (p.length + 1) =
        .ok ⟨some old⟩ := by
  intro p
  induction p using List.reverseRecOn with
  | nil =>
    intro a ha old
    obtain rfl := Option.some_inj.mp ha
    simp [intoMutLoop]
  | append_singleton p d ih =>
    intro a ha old
    rw [follow_append] at ha
    cases hb : follow h r p with
    | none => rw [hb] at ha; cases ha
    | some b =>
      rw [hb] at ha
      simp only [Option.some_bind] at ha
      simp [follow] at ha
      rcases Option.bind_eq_some.mp ha with ⟨n, hdb, hslot⟩
      obtain ⟨m, hma, hmp⟩ := wf_slot hwf hdb hslot
      have hlen : (p ++ [d]).length + 1 = (p.length + 1) + 1 := by simp
      rw [hlen]
      simp only [intoMutLoop]
      by_cases har : (some a : Option Nat) = some r
      · rw [if_pos har]
      · rw [if_neg har]
        have hcl : BinaryViewInner.climb h ⟨some a⟩ = .ok ⟨some b⟩ := by
          simp [BinaryViewInner.climb, hma, hmp]
        rw [hcl]
        exact ih b hb old

theorem intoMutLoop_wrong_root {h : Heap T} {rB : Nat} {bn : BinaryNode T}
    (hroot : h.deref rB = some bn) (hbp : bn.parent = none) :
    ∀ (k a t : Nat), climbToRoot h a k = some t → t ≠ rB →
      ∀ old, intoMutLoop h rB old (some a) k = .err ⟨some old⟩ := by
  intro k
  induction k with
  | zero =>
    intro a t hct
    simp [climbToRoot] at hct
  | succ k ih =>
    intro a t hct htn old
    simp only [climbToRoot] at hct
    cases hda : h.deref a with
    | none => rw [hda] at hct; cases hct
    | some n =>
      rw [hda] at hct
      have hct' : (match n.parent with
        | none => some a
        | some p => climbToRoot h p k) = some t := hct
      cases hp : n.parent with
      | none =>
        rw [hp] at hct'
        obtain rfl := Option.some_inj.mp hct'
        simp only [intoMutLoop]
        rw [if_neg (by simpa using htn)]
        have hcl : BinaryViewInner.climb h ⟨some a⟩ = .err ⟨some a⟩ := by
          simp [BinaryViewInner.climb, hda, hp]
        rw [hcl]
      | some q =>
        rw [hp] at hct'
        have han : a ≠ rB := by
          intro e
          subst e
          rw [hroot] at hda
          obtain rfl := Option.some_inj.mp hda
          rw [hbp] at hp
          cases hp
        simp only [intoMutLoop]
        rw [if_neg (by simpa using han)]
        have hcl : BinaryViewInner.climb h ⟨some a⟩ = .ok ⟨some q⟩ := by
          simp [BinaryViewInner.climb, hda, hp]
        rw [hcl]
        exact ih q t hct' htn old

theorem intoMutLoop_restores {h : Heap T} {rootN old : Nat} :
    ∀ fuel (cur : Option Nat) w,
      (intoMutLoop h rootN old cur fuel = .ok w ∨
        intoMutLoop h rootN old cur fuel = .err w) → w = ⟨some old⟩ := by
  intro fuel
  induction fuel with
  | zero =>
    intro cur w hw
    rcases hw with hw | hw <;> simp [intoMutLoop] at hw
  | succ fuel ih =>
    intro cur w hw
    by_cases hcur : cur = some rootN
    · rcases hw with hw | hw <;> simp only [intoMutLoop, if_pos hcur] at hw
      · injection hw with h1
        exact h1.symm
      · cases hw
    · cases hcl : BinaryViewInner.climb h ⟨cur⟩ with
      | ok v =>
        rcases hw with hw | hw <;>
          simp only [intoMutLoop, if_neg hcur, hcl] at hw
        · exact ih v.node w (Or.inl hw)
        · exact ih v.node w (Or.inr hw)
      | err v =>
        rcases hw with hw | hw <;>
          simp only [intoMutLoop, if_neg hcur, hcl] at hw
        · cases hw
        · injection hw with h1
          exact h1.symm
      | panicked =>
        rcases hw with hw | hw <;>
          simp only [intoMutLoop, if_neg hcur, hcl] at hw <;> cases hw
      | fault =>
        rcases hw with hw | hw <;>
          simp only [intoMutLoop, if_neg hcur, hcl] at hw <;> cases hw

theorem intoMutLoop_not_panicked {h : Heap T} {rootN old : Nat} :
    ∀ fuel (a : Nat), intoMutLoop h rootN old (some a) fuel ≠ .panicked := by
  intro fuel
  induction fuel with
  | zero =>
    intro a h0
    simp [intoMutLoop] at h0
  | succ fuel ih =>
    intro a h0
    by_cases hcur : (some a : Option Nat) = some rootN
    · simp only [intoMutLoop, if_pos hcur] at h0
      cases h0
    · cases hda : h.deref a with
      | none =>
        have hcl : BinaryViewInner.climb h ⟨some a⟩ = .fault := by
          simp [BinaryViewInner.climb, hda]
        simp only [intoMutLoop, if_neg hcur, hcl] at h0
        cases h0
      | some n =>
        cases hp : n.parent with
        | none =>
          have hcl : BinaryViewInner.climb h ⟨some a⟩ = .err ⟨some a⟩ := by
            simp [BinaryViewInner.climb, hda, hp]
          simp only [intoMutLoop, if_neg hcur, hcl] at h0
          cases h0
        | some q =>
          have hcl : BinaryViewInner.climb h ⟨some a⟩ = .ok ⟨some q⟩ := by
            simp [BinaryViewInner.climb, hda, hp]
          simp only [intoMutLoop, if_neg hcur, hcl] at h0
          exact ih q h0

/-! ## The public method surface of the two view types

Claim C1 is about which cursor type exposes mutable access, i.e. about
the signature surface of the two `impl` blocks in `view.rs`.  The tables
below transcribe, for each public method of `BinaryView` and
`BinaryViewMut`, whether its return type hands out
`&mut BinaryNode<T>` at the cursor's current position. -/

/-- A public method: its name and whether it returns
`&mut BinaryNode<T>` for the node at the cursor's position. -/
structure MethodSig where
  name : String
  returnsMutNodeRef : Bool
deriving DecidableEq, Repr

/-- The `impl BinaryView` block of `view.rs`: `new`,
`into_mut_unchecked`, `into_mut`, `node(&mut self) -> &mut BinaryNode<T>`,
`climb`, `descend`. -/
def BinaryView.methods : List MethodSig :=
  [⟨"new", false⟩,
   ⟨"into_mut_unchecked", false⟩,
   ⟨"into_mut", false⟩,
   ⟨"node", true⟩,
   ⟨"climb", false⟩,
   ⟨"descend", false⟩]

/-- The `impl BinaryViewMut` block of `view.rs`: only `new`. -/
def BinaryViewMut.methods : List MethodSig :=
  [⟨"new", false⟩]

/-! ## Concrete heaps used as witnesses (the §8 scenario of the spec) -/

/-- Tree `A`: root `0` (addr 0), left child `1` (addr 1), right child `3`
(addr 2), left-left grandchild `2` (addr 3), built through the source
operations. -/
def demoHeap : Heap Int :=
  (add_child
    (add_child
      (add_child (BinaryTree.new ⟨[]⟩ 0).1 0 .Left 1).1
      0 .Right 3).1
    1 .Left 2).1

/-- The same heap after allocating a second, distinct tree `B` with root
payload `7` at address 4. -/
def demoHeapB : Heap Int :=
  (BinaryTree.new demoHeap 7).1

/-! ## Claims -/

/-- C1: the claim states that mutable access to the node at the
cursor's position is exposed only by the exclusive cursor.  The source
does the opposite: the shared cursor `BinaryView` exposes
`node() -> &mut BinaryNode<T>` (view.rs, line 108), while the exclusive
cursor `BinaryViewMut` exposes no `node` method at all.  This theorem
evaluates the method surface at that point. -/
theorem C1_shared_view_exposes_mut_node :
    (BinaryView.methods.contains ⟨"node", true⟩ &&
      BinaryViewMut.methods.all (fun m => !m.returnsMutNodeRef) &&
      BinaryViewMut.methods.all (fun m => m.name != "node")) = true := by
  decide

/-- C2: a shared cursor at any position reachable from the root `r`
of its own tree, upgraded with `into_mut` against that tree, succeeds,
and the exclusive cursor is positioned at the original node (not the
root); the ancestor walk is verification only.  `fuel` bounds the source
`loop`: any amount of at least depth + 1 suffices. -/
theorem C2_into_mut_own_tree_succeeds_at_same_position {h : Heap T}
    {r a : Nat} {p : List Dir} (hwf : wf h = true)
    (hreach : follow h r p = some a) {fuel : Nat}
    (hfuel : p.length + 1 ≤ fuel) :
    BinaryView.into_mut h r ⟨some a⟩ fuel = .ok ⟨some a⟩ := by
  show intoMutLoop h r a (some a) fuel = .ok ⟨some a⟩
  exact intoMutLoop_mono (fun e => UpgradeResult.noConfusion e)
    (p.length + 1) (some a) fuel (intoMutLoop_of_follow hwf p a hreach a) hfuel

/-- Witness for C2 on the §8 tree: the cursor at depth 2 (value `2`,
address 3) upgrades against root address 0 and comes back at address 3. -/
theorem C2_witness :
    wf demoHeap = true ∧
    follow demoHeap 0 [Dir.Left, Dir.Left] = some 3 ∧
    BinaryView.into_mut demoHeap 0 ⟨some 3⟩ 3 = .ok ⟨some 3⟩ :=
  ⟨by decide, by decide,
    C2_into_mut_own_tree_succeeds_at_same_position (by decide)
      (show follow demoHeap 0 [Dir.Left, Dir.Left] = some 3 by decide)
      (by decide)⟩

/-- C3: a shared cursor whose ancestor chain terminates at a root
other than the root of the presented tree `B` fails `into_mut` and is
handed back unchanged, at its original position. -/
theorem C3_into_mut_distinct_tree_fails_unchanged {h : Heap T}
    {rB a t k : Nat} {bn : BinaryNode T} (hroot : h.deref rB = some bn)
    (hbp : bn.parent = none) (hchain : climbToRoot h a k = some t)
    (hne : t ≠ rB) {fuel : Nat} (hfuel : k ≤ fuel) :
    BinaryView.into_mut h rB ⟨some a⟩ fuel = .err ⟨some a⟩ := by
  show intoMutLoop h rB a (some a) fuel = .err ⟨some a⟩
  exact intoMutLoop_mono (fun e => UpgradeResult.noConfusion e) k (some a)
    fuel (intoMutLoop_wrong_root hroot hbp k a t hchain hne a) hfuel

/-- Witness for C3: the cursor at address 3 belongs to tree `A`
(chain terminates at address 0); presented with tree `B` (root address
4), `into_mut` fails and returns the cursor still at address 3. -/
theorem C3_witness :
    demoHeapB.deref 4 = some ⟨none, (none, none), 7⟩ ∧
    climbToRoot demoHeapB 3 3 = some 0 ∧
    BinaryView.into_mut demoHeapB 4 ⟨some 3⟩ 3 = .err ⟨some 3⟩ :=
  ⟨by decide, by decide,
    C3_into_mut_distinct_tree_fails_unchanged
      (show demoHeapB.deref 4 = some ⟨none, (none, none), 7⟩ by decide) rfl
      (show climbToRoot demoHeapB 3 3 = some 0 by decide)
      (by decide) (by decide)⟩

/-- C4: for every node present in some parent's child slot `d`,
`descend d` from the parent succeeds and lands on that child, and
`climb` from the child comes back to exactly the parent (round-trip
law). -/
theorem C4_descend_climb_roundtrip {h : Heap T} {a c : Nat}
    {n : BinaryNode T} {d : Dir} (hwf : wf h = true)
    (hn : h.deref a = some n) (hc : childSlot n d = some c) :
    BinaryViewInner.descend h ⟨some a⟩ d = .ok ⟨some c⟩ ∧
    BinaryViewInner.climb h ⟨some c⟩ = .ok ⟨some a⟩ := by
  obtain ⟨m, hm, hmp⟩ := wf_slot hwf hn hc
  constructor
  · simp [BinaryViewInner.descend, hn, hc]
  · simp [BinaryViewInner.climb, hm, hmp]

/-- Witness for C4: descending right from the root (addr 0) reaches
addr 2 and climbing from addr 2 returns to addr 0. -/
theorem C4_witness :
    BinaryViewInner.descend demoHeap ⟨some 0⟩ Dir.Right = .ok ⟨some 2⟩ ∧
    BinaryViewInner.climb demoHeap ⟨some 2⟩ = .ok ⟨some 0⟩ :=
  C4_descend_climb_roundtrip (by decide)
    (show demoHeap.deref 0 = some ⟨none, (some 1, some 2), 0⟩ by decide)
    (by decide)

/-- C5: `climb` on a cursor at a node with a null parent
back-reference (the root) returns `Err` with the cursor unchanged at the
same position; at any node with a parent, it returns `Ok` repositioned
at that parent. -/
theorem C5_climb_boundary {h : Heap T} {a : Nat} {n : BinaryNode T}
    (hn : h.deref a = some n) :
    (n.parent = none →
      BinaryViewInner.climb h ⟨some a⟩ = .err ⟨some a⟩) ∧
    (∀ q, n.parent = some q →
      BinaryViewInner.climb h ⟨some a⟩ = .ok ⟨some q⟩) := by
  constructor
  · intro hp
    simp [BinaryViewInner.climb, hn, hp]
  · intro q hp
    simp [BinaryViewInner.climb, hn, hp]

/-- Witness for C5: climbing from the root (addr 0) fails in place;
climbing from addr 3 moves to its parent, addr 1. -/
theorem C5_witness :
    BinaryViewInner.climb demoHeap ⟨some 0⟩ = .err ⟨some 0⟩ ∧
    BinaryViewInner.climb demoHeap ⟨some 3⟩ = .ok ⟨some 1⟩ :=
  ⟨(C5_climb_boundary
      (show demoHeap.deref 0 = some ⟨none, (some 1, some 2), 0⟩ by decide)).1
      rfl,
    (C5_climb_boundary
      (show demoHeap.deref 3 = some ⟨some 1, (none, none), 2⟩ by decide)).2
      1 rfl⟩

/-- C6: `descend d` on a cursor whose node's slot `d` is empty
returns `Err` with the cursor unchanged; when the slot holds a child it
returns `Ok` repositioned at that child; neither boundary case panics. -/
theorem C6_descend_boundary {h : Heap T} {a : Nat} {n : BinaryNode T}
    {d : Dir} (hn : h.deref a = some n) :
    (childSlot n d = none →
      BinaryViewInner.descend h ⟨some a⟩ d = .err ⟨some a⟩) ∧
    (∀ c, childSlot n d = some c →
      BinaryViewInner.descend h ⟨some a⟩ d = .ok ⟨some c⟩) ∧
    BinaryViewInner.descend h ⟨some a⟩ d ≠ .panicked := by
  refine ⟨fun hc => by simp [BinaryViewInner.descend, hn, hc],
    fun c hc => by simp [BinaryViewInner.descend, hn, hc], ?_⟩
  intro hcontra
  cases hc : childSlot n d with
  | none =>
    rw [show BinaryViewInner.descend h ⟨some a⟩ d = .err ⟨some a⟩ from by
      simp [BinaryViewInner.descend, hn, hc]] at hcontra
    cases hcontra
  | some c =>
    rw [show BinaryViewInner.descend h ⟨some a⟩ d = .ok ⟨some c⟩ from by
      simp [BinaryViewInner.descend, hn, hc]] at hcontra
    cases hcontra

/-- Witness for C6: descending left from addr 2 (leaf) fails in place;
descending left from the root reaches addr 1. -/
theorem C6_witness :
    BinaryViewInner.descend demoHeap ⟨some 2⟩ Dir.Left = .err ⟨some 2⟩ ∧
    BinaryViewInner.descend demoHeap ⟨some 0⟩ Dir.Left = .ok ⟨some 1⟩ :=
  ⟨(C6_descend_boundary
      (show demoHeap.deref 2 = some ⟨some 0, (none, none), 3⟩ by decide)).1
      rfl,
    (C6_descend_boundary
      (show demoHeap.deref 0 = some ⟨none, (some 1, some 2), 0⟩ by decide)).2.1
      1 rfl⟩

/-- C7: `add_child d p` installs a fresh child holding `p` — a
subsequent `descend d` succeeds and lands on a node whose value is `p` —
and returns the previous occupant of the slot; a second
`add_child d p2` returns the first child (whose value is still `p`) and
a subsequent `descend d` then yields the node holding `p2`. -/
theorem C7_add_child_then_descend {h : Heap T} {a : Nat}
    {n : BinaryNode T} (d : Dir) (p p2 : T) (hn : h.deref a = some n) :
    BinaryViewInner.descend (add_child h a d p).1 ⟨some a⟩ d =
      .ok ⟨some h.nodes.length⟩ ∧
    ((add_child h a d p).1.deref h.nodes.length).map BinaryNode.value =
      some p ∧
    (add_child (add_child h a d p).1 a d p2).2 = some h.nodes.length ∧
    ((add_child (add_child h a d p).1 a d p2).1.deref
      h.nodes.length).map BinaryNode.value = some p ∧
    BinaryViewInner.descend (add_child (add_child h a d p).1 a d p2).1
      ⟨some a⟩ d = .ok ⟨some (add_child h a d p).1.nodes.length⟩ ∧
    ((add_child (add_child h a d p).1 a d p2).1.deref
      (add_child h a d p).1.nodes.length).map BinaryNode.value = some p2 := by
  obtain ⟨n', hdn', hp', hv', hslot', hopp'⟩ := add_child_deref_self hn d p
  have hfresh := add_child_deref_fresh hn d p
  obtain ⟨n'', hdn'', hp'', hv'', hslot'', hopp''⟩ :=
    add_child_deref_self hdn' d p2
  have hfresh2 := add_child_deref_fresh hdn' d p2
  have ha : a < h.nodes.length := Heap.deref_lt hn
  refine ⟨?_, ?_, ?_, ?_, ?_, ?_⟩
  · simp [BinaryViewInner.descend, hdn', hslot']
  · rw [hfresh]
    rfl
  · rw [add_child_snd hdn' d p2, hslot']
  · have hne : h.nodes.length ≠ a := by omega
    have hne2 : h.nodes.length ≠ (add_child h a d p).1.nodes.length := by
      rw [add_child_length hn d p]
      omega
    rw [add_child_deref_other hdn' d p2 hne hne2, hfresh]
    rfl
  · simp [BinaryViewInner.descend, hdn'', hslot'']
  · rw [hfresh2]
    rfl

/-- Witness for C7 at addr 2 of the §8 tree, with payloads 9 and 11:
the fresh child lands at addr 4, the second insertion returns addr 4
(value 9) and descend then reaches addr 5 (value 11). -/
theorem C7_witness :
    BinaryViewInner.descend (add_child demoHeap 2 Dir.Left 9).1 ⟨some 2⟩
      Dir.Left = .ok ⟨some 4⟩ ∧
    (add_child (add_child demoHeap 2 Dir.Left 9).1 2 Dir.Left 11).2 =
      some 4 ∧
    ((add_child (add_child demoHeap 2 Dir.Left 9).1 2 Dir.Left 11).1.deref
      4).map BinaryNode.value = some 9 :=
  ⟨(C7_add_child_then_descend Dir.Left (9 : Int) 11
      (show demoHeap.deref 2 = some ⟨some 0, (none, none), 3⟩ by decide)).1,
    (C7_add_child_then_descend Dir.Left (9 : Int) 11
      (show demoHeap.deref 2 = some ⟨some 0, (none, none), 3⟩ by decide)).2.2.1,
    (C7_add_child_then_descend Dir.Left (9 : Int) 11
      (show demoHeap.deref 2 = some ⟨some 0, (none, none), 3⟩ by decide)).2.2.2.1⟩

/-- C8: the parent back-link invariant — every occupied child slot
holds a node whose parent back-reference is the containing node's
address — holds for a freshly constructed tree and is preserved by
`add_child` and `set_value` (the cursor operations take the heap
read-only and cannot disturb it). -/
theorem C8_backlink_invariant :
    (∀ (A : Type) (v : A), wf (BinaryTree.new (⟨[]⟩ : Heap A) v).1 = true) ∧
    (∀ (A : Type) (h : Heap A) (v : A), wf h = true →
      wf (BinaryTree.new h v).1 = true) ∧
    (∀ (A : Type) (h : Heap A) (a : Nat) (d : Dir) (data : A),
      wf h = true → wf (add_child h a d data).1 = true) ∧
    (∀ (A : Type) (h : Heap A) (a : Nat) (data : A), wf h = true →
      wf (set_value h a data).1 = true) :=
  ⟨fun _ v => wf_tree_new (by rfl) v,
    fun _ _ v hwf => wf_tree_new hwf v,
    fun _ _ a d data hwf => wf_add_child hwf a d data,
    fun _ _ a data hwf => wf_set_value hwf a data⟩

/-- Witness for C8 on the §8 heap: the invariant survives a fresh tree
allocation, an `add_child` and a `set_value`. -/
theorem C8_witness :
    wf (BinaryTree.new demoHeap 7).1 = true ∧
    wf (add_child demoHeap 2 Dir.Left 9).1 = true ∧
    wf (set_value demoHeap 0 (-1)).1 = true :=
  ⟨C8_backlink_invariant.2.1 Int demoHeap 7 (by decide),
    C8_backlink_invariant.2.2.1 Int demoHeap 2 Dir.Left 9 (by decide),
    C8_backlink_invariant.2.2.2 Int demoHeap 0 (-1) (by decide)⟩

/-! ## Result-shape lemmas for climb and descend (used for C9) -/

theorem climb_result_form (h : Heap T) (a : Nat) :
    BinaryViewInner.climb h ⟨some a⟩ = .fault ∨
    (∃ x, BinaryViewInner.climb h ⟨some a⟩ = .ok ⟨some x⟩) ∨
    BinaryViewInner.climb h ⟨some a⟩ = .err ⟨some a⟩ := by
  cases hda : h.deref a with
  | none => exact Or.inl (by simp [BinaryViewInner.climb, hda])
  | some n =>
    cases hp : n.parent with
    | none =>
      exact Or.inr (Or.inr (by simp [BinaryViewInner.climb, hda, hp]))
    | some q =>
      exact Or.inr (Or.inl ⟨q, by simp [BinaryViewInner.climb, hda, hp]⟩)

theorem descend_result_form (h : Heap T) (a : Nat) (d : Dir) :
    BinaryViewInner.descend h ⟨some a⟩ d = .fault ∨
    (∃ x, BinaryViewInner.descend h ⟨some a⟩ d = .ok ⟨some x⟩) ∨
    BinaryViewInner.descend h ⟨some a⟩ d = .err ⟨some a⟩ := by
  cases hda : h.deref a with
  | none => exact Or.inl (by simp [BinaryViewInner.descend, hda])
  | some n =>
    cases hc : childSlot n d with
    | none =>
      exact Or.inr (Or.inr (by simp [BinaryViewInner.descend, hda, hc]))
    | some c =>
      exact Or.inr (Or.inl ⟨c, by simp [BinaryViewInner.descend, hda, hc]⟩)

/-- C9: `climb` and `descend` panic exactly when the cursor's
position pointer is null; cursors minted by the safe API are never null
and every safe operation returns cursors with non-null positions, so for
such cursors the panic branch is unreachable (including inside the
`into_mut` walk). -/
theorem C9_panic_iff_null_position (h : Heap T) :
    (∀ v : BinaryViewInner,
      BinaryViewInner.climb h v = .panicked ↔ v.node = none) ∧
    (∀ (v : BinaryViewInner) (d : Dir),
      BinaryViewInner.descend h v d = .panicked ↔ v.node = none) ∧
    (∀ r : Nat, (BinaryView.new r).node ≠ none) ∧
    (∀ (v w : BinaryViewInner),
      (BinaryViewInner.climb h v = .ok w ∨
        BinaryViewInner.climb h v = .err w) → w.node ≠ none) ∧
    (∀ (v w : BinaryViewInner) (d : Dir),
      (BinaryViewInner.descend h v d = .ok w ∨
        BinaryViewInner.descend h v d = .err w) → w.node ≠ none) ∧
    (∀ (r fuel : Nat) (v w : BinaryViewInner),
      (BinaryView.into_mut h r v fuel = .ok w ∨
        BinaryView.into_mut h r v fuel = .err w) → w.node ≠ none) ∧
    (∀ (r a fuel : Nat),
      BinaryView.into_mut h r ⟨some a⟩ fuel ≠ .panicked) := by
  refine ⟨?_, ?_, ?_, ?_, ?_, ?_, ?_⟩
  · rintro ⟨vn⟩
    cases vn with
    | none => simp [BinaryViewInner.climb]
    | some a =>
      constructor
      · intro hc
        rcases climb_result_form h a with hf | ⟨x, hx⟩ | he
        · rw [hf] at hc; cases hc
        · rw [hx] at hc; cases hc
        · rw [he] at hc; cases hc
      · intro hv
        simp at hv
  · rintro ⟨vn⟩ d
    cases vn with
    | none => simp [BinaryViewInner.descend]
    | some a =>
      constructor
      · intro hc
        rcases descend_result_form h a d with hf | ⟨x, hx⟩ | he
        · rw [hf] at hc; cases hc
        · rw [hx] at hc; cases hc
        · rw [he] at hc; cases hc
      · intro hv
        simp at hv
  · intro r
    simp [BinaryView.new]
  · rintro ⟨vn⟩ w hw
    cases vn with
    | none =>
      rcases hw with hw | hw <;>
        rw [show BinaryViewInner.climb h ⟨none⟩ = .panicked from rfl] at hw <;>
        cases hw
    | some a =>
      rcases climb_result_form h a with hf | ⟨x, hx⟩ | he
      · rcases hw with hw | hw <;> rw [hf] at hw <;> cases hw
      · rcases hw with hw | hw <;> rw [hx] at hw
        · injection hw with h1
          rw [← h1]
          simp
        · cases hw
      · rcases hw with hw | hw <;> rw [he] at hw
        · cases hw
        · injection hw with h1
          rw [← h1]
          simp
  · rintro ⟨vn⟩ w d hw
    cases vn with
    | none =>
      rcases hw with hw | hw <;>
        rw [show BinaryViewInner.descend h ⟨none⟩ d = .panicked from rfl]
          at hw <;> cases hw
    | some a =>
      rcases descend_result_form h a d with hf | ⟨x, hx⟩ | he
      · rcases hw with hw | hw <;> rw [hf] at hw <;> cases hw
      · rcases hw with hw | hw <;> rw [hx] at hw
        · injection hw with h1
          rw [← h1]
          simp
        · cases hw
      · rcases hw with hw | hw <;> rw [he] at hw
        · cases hw
        · injection hw with h1
          rw [← h1]
          simp
  · rintro r fuel ⟨vn⟩ w hw
    cases vn with
    | none =>
      rcases hw with hw | hw <;>
        rw [show BinaryView.into_mut h r ⟨none⟩ fuel = .panicked from rfl]
          at hw <;> cases hw
    | some old =>
      have hres : w = ⟨some old⟩ := intoMutLoop_restores fuel (some old) w hw
      rw [hres]
      simp
  · intro r a fuel
    exact intoMutLoop_not_panicked fuel a

/-- Witness for C9: a null cursor panics on climb; a freshly minted
view is non-null. -/
theorem C9_witness :
    BinaryViewInner.climb demoHeap ⟨none⟩ = NavResult.panicked ∧
    (BinaryView.new 0).node ≠ none :=
  ⟨((C9_panic_iff_null_position demoHeap).1 ⟨none⟩).mpr rfl,
    (C9_panic_iff_null_position demoHeap).2.2.1 0⟩

/-- C10: frame property of `add_child`: the node's own value, its
parent back-reference and the child slot opposite to `d` are unchanged,
and the freshly installed child has both of its own child slots empty
(and its parent set to the node). -/
theorem C10_add_child_frame {h : Heap T} {a : Nat} {n : BinaryNode T}
    (d : Dir) (data : T) (hn : h.deref a = some n) :
    (∃ n', (add_child h a d data).1.deref a = some n' ∧
      n'.value = n.value ∧ n'.parent = n.parent ∧
      childSlot n' (Dir.opp d) = childSlot n (Dir.opp d)) ∧
    (add_child h a d data).1.deref h.nodes.length =
      some { parent := some a, children := (none, none), value := data } := by
  obtain ⟨n', h1, h2, h3, h4, h5⟩ := add_child_deref_self hn d data
  exact ⟨⟨n', h1, h3, h2, h5⟩, add_child_deref_fresh hn d data⟩

/-- Witness for C10 at addr 2 (value 3, parent 0): after adding a left
child 9, the node keeps value 3, parent 0 and an empty right slot, and
the new child at addr 4 has empty slots. -/
theorem C10_witness :
    (∃ n', (add_child demoHeap 2 Dir.Left 9).1.deref 2 = some n' ∧
      n'.value = (3 : Int) ∧ n'.parent = some 0 ∧
      childSlot n' (Dir.opp Dir.Left) = none) ∧
    (add_child demoHeap 2 Dir.Left 9).1.deref 4 =
      some { parent := some 2, children := (none, none), value := (9 : Int) } :=
  C10_add_child_frame Dir.Left 9
    (show demoHeap.deref 2 = some ⟨some 0, (none, none), 3⟩ by decide)
